import Mathlib

/-!
Verification of the bibliography tooling in `_scripts/generate_pages.py`.

The script parses a BibTeX-style bibliography and renders Markdown/HTML
fragments.  This file gives a shallow embedding of the parser
(`parse_bib`, `_parse_fields`) and of the formatting helpers the claims
refer to, and proves theorems about them.

Modelling conventions:
* Python strings are `List Char` (`Str` below); `str` injects Lean string
  literals.
* Python dicts from field names to values are association lists in which a
  later binding shadows an earlier one; `dget` returns the last binding,
  matching dict update semantics (`d[k] = v` with last-write-wins).
* The source's scanning loops walk an integer index through the input.  They
  are modelled as fuel-indexed recursions, one unit of fuel per loop
  iteration, with the fuel initialised to the input length.  Every iteration
  consumes at least one character, so this fuel is always sufficient; that
  fact is proved below as a fuel-irrelevance theorem and is the formal
  counterpart of termination of the Python loops.
-/

namespace GenPages

abbrev Str := List Char

/-- Interpret a Lean string literal as a Python string value. -/
def str (s : String) : Str := s.data

abbrev Dict := List (Str × Str)

/-- Python whitespace for `\s` and `str.strip()` (ASCII part). -/
def isPySpace (c : Char) : Bool :=
  c == ' ' || c == '\t' || c == '\n' || c == '\r' || c == '\x0b' || c == '\x0c'

/-- The characters skipped between fields: the literal set `" \t\n\r,"`
from line 87 of the source. -/
def isSkipChar (c : Char) : Bool :=
  c == ' ' || c == '\t' || c == '\n' || c == '\r' || c == ','

/-- Word characters, Python's `\w` (the bibliography is ASCII). -/
def isWordChar (c : Char) : Bool := c.isAlphanum || c == '_'

/-- Python `str.strip()`. -/
def pyStrip (s : Str) : Str :=
  ((s.dropWhile isPySpace).reverse.dropWhile isPySpace).reverse

/-- Python `str.lower()`. -/
def pyLower (s : Str) : Str := s.map Char.toLower

/-- Store a binding in a record; later bindings shadow earlier ones. -/
def dset (d : Dict) (k v : Str) : Dict := d ++ [(k, v)]

/-- Look a key up in a record: the most recent binding wins, as in a
Python dict. -/
def dget (d : Dict) (k : Str) : Option Str :=
  d.foldl (fun r p => if p.1 = k then some p.2 else r) none

/-- Python `d.get(k, default)`. -/
def dgetD (d : Dict) (k : Str) (dflt : Str) : Str := (dget d k).getD dflt

/-- Python `s.split(sep)` for a one-character separator.  Always returns at
least one (possibly empty) piece. -/
def splitOnChar (sep : Char) : Str → List Str
  | [] => [[]]
  | c :: rest =>
    if c = sep then [] :: splitOnChar sep rest
    else
      match splitOnChar sep rest with
      | [] => [[c]]
      | g :: gs => (c :: g) :: gs

/-- Python `sep.join(parts)`. -/
def pyJoin (sep : Str) : List Str → Str
  | [] => []
  | [x] => x
  | x :: y :: rest => x ++ sep ++ pyJoin sep (y :: rest)

/-!
The balanced-brace scan shared by `parse_bib` (lines 59-70) and the braced
value case of `_parse_fields` (lines 110-120): starting at a given depth,
walk the input adjusting the depth on `{` / `}` and stop once the depth
reaches zero.  Returns the consumed text up to (excluding) the closing
brace, and the remaining input.  If the input runs out first, the source
slices `[start : pos-1]`, i.e. the last consumed character is dropped.
-/
def scanBraced : Str → Nat → Str → Str × Str
  | [], _, acc => (acc.reverse.dropLast, [])
  | c :: rest, d, acc =>
    let d' := if c = '{' then d + 1 else if c = '}' then d - 1 else d
    if d' = 0 then (acc.reverse, rest) else scanBraced rest d' (c :: acc)

/-- Key-token characters of the entry marker regex, `[^,\s]`. -/
def isKeyChar (c : Char) : Bool := !(c == ',') && !isPySpace c

/-- Attempt to match the entry-marker regex `@(\w+)\{\s*([^,\s]+)\s*,`
at the start of the input (the regex is deterministic: each greedy piece
is over a character class disjoint from what follows).  On success returns
the entry type, the raw key token and the input just after the comma. -/
def matchMarker (s : Str) : Option (Str × Str × Str) :=
  match s with
  | [] => none
  | c :: rest =>
    if c = '@' then
      let ty := rest.takeWhile isWordChar
      if ty.isEmpty then none
      else
        match rest.dropWhile isWordChar with
        | b :: r2 =>
          if b = '{' then
            let r3 := r2.dropWhile isPySpace
            let key := r3.takeWhile isKeyChar
            if key.isEmpty then none
            else
              match (r3.dropWhile isKeyChar).dropWhile isPySpace with
              | d :: r6 => if d = ',' then some (ty, key, r6) else none
              | [] => none
          else none
        | [] => none
    else none

/-- Result of one iteration of the `_parse_fields` loop. -/
inductive FStep where
  | done (acc : Dict)
  | cont (rest : Str) (acc : Dict)

/-- Bare-value terminators: the loop on line 130 stops at `,`, `}` or a
newline (and at nothing else; in particular not at `{`). -/
def notDelim (c : Char) : Bool := !(c == ',' || c == '}' || c == '\n')

/-- The body of one iteration of the field-scanning loop of
`_parse_fields` (lines 92-134), after the whitespace/comma skip: skip a `%`
comment line, try the field regex `(\w+)\s*=\s*` (advancing one character
if it fails), then read a braced, quoted or bare value and store
`name.lower() ↦ value.strip()`. -/
def parseFieldsCore : Str → Dict → FStep
  | [], acc => .done acc
  | c :: s2, acc =>
    if c = '%' then .cont ((c :: s2).dropWhile (fun d => !(d == '\n'))) acc
    else
      let nm := (c :: s2).takeWhile isWordChar
      if nm.isEmpty then .cont s2 acc
      else
        match ((c :: s2).dropWhile isWordChar).dropWhile isPySpace with
        | [] => .cont s2 acc
        | e :: r2 =>
          if e = '=' then
            match r2.dropWhile isPySpace with
            | [] => .done acc
            | d :: r4 =>
              if d = '{' then
                let pr := scanBraced r4 1 []
                .cont pr.2 (dset acc (pyLower nm) (pyStrip pr.1))
              else if d = '"' then
                let v := r4.takeWhile (fun x => !(x == '"'))
                .cont ((r4.dropWhile (fun x => !(x == '"'))).drop 1)
                  (dset acc (pyLower nm) (pyStrip v))
              else
                let v := pyStrip ((d :: r4).takeWhile notDelim)
                .cont ((d :: r4).dropWhile notDelim)
                  (dset acc (pyLower nm) (pyStrip v))
          else .cont s2 acc

/-- One iteration of the `_parse_fields` loop (lines 85-134): the
whitespace/comma skip of line 87 followed by the loop body. -/
def parseFieldsStep (s : Str) (acc : Dict) : FStep :=
  parseFieldsCore (s.dropWhile isSkipChar) acc

/-- The `_parse_fields` loop, one unit of fuel per iteration. -/
def parseFieldsGo : Nat → Str → Dict → Dict
  | 0, _, acc => acc
  | fuel + 1, s, acc =>
    match parseFieldsStep s acc with
    | .done a => a
    | .cont s' a' => parseFieldsGo fuel s' a'

/-- The source's `_parse_fields`: extract `field = value` pairs from a bib
entry body. -/
def parseFields (body : Str) : Dict := parseFieldsGo body.length body []

/-- Result of one iteration of the entry scan of `parse_bib`. -/
inductive BStep where
  | done
  | yield (r : Dict) (rest : Str)
  | skip (rest : Str)

/-- One step of the entry scan of `parse_bib` (lines 54-74): at each
position try the entry-marker regex; on a match, brace-scan the entry body,
parse its fields and add the `_type` / `_key` bindings, then continue just
after the marker's comma (as `re.finditer` does); otherwise move one
character forward. -/
def parseBibStep (s : Str) : BStep :=
  match s with
  | [] => .done
  | _ :: rest =>
    match matchMarker s with
    | some (ty, key, after) =>
      let pr := scanBraced after 1 []
      .yield
        (dset (dset (parseFields pr.1) (str "_type") (pyLower ty))
          (str "_key") (pyStrip key))
        after
    | none => .skip rest

/-- The `parse_bib` scan, one unit of fuel per examined position. -/
def parseBibGo : Nat → Str → List Dict
  | 0, _ => []
  | fuel + 1, s =>
    match parseBibStep s with
    | .done => []
    | .yield r after => r :: parseBibGo fuel after
    | .skip rest => parseBibGo fuel rest

/-- The source's `parse_bib`, applied to the text of the bib file (reading
the file itself is I/O outside the model). -/
def parse_bib (content : Str) : List Dict := parseBibGo content.length content

/-- The sequence of entry markers `@type{key,` appearing in the text, in
source order: the same non-overlapping scan `re.finditer` performs in
`parse_bib`, recording only the matched groups. -/
def findMarkersGo : Nat → Str → List (Str × Str)
  | 0, _ => []
  | fuel + 1, s =>
    match s with
    | [] => []
    | _ :: rest =>
      match matchMarker s with
      | some (ty, key, after) => (ty, key) :: findMarkersGo fuel after
      | none => findMarkersGo fuel rest

/-- All entry markers of a bibliography text, in order of appearance. -/
def findMarkers (content : Str) : List (Str × Str) :=
  findMarkersGo content.length content

/-- Brace-balanced texts: the values the depth-counting scan is meant to
accept, with nesting of arbitrary depth. -/
inductive Balanced : Str → Prop where
  | nil : Balanced []
  | other (c : Char) (s : Str) : c ≠ '{' → c ≠ '}' → Balanced s → Balanced (c :: s)
  | nest (s t : Str) : Balanced s → Balanced t → Balanced ('{' :: (s ++ '}' :: t))

/-!  Formatting helpers (lines 143-251 of the source). -/

/-- The source's `get_year`: the `year` field if present, else the prefix of
`date` before the first `-`, then before the first `/` (`split[0]` twice),
else the empty string. -/
def get_year (e : Dict) : Str :=
  match dget e (str "year") with
  | some y => y
  | none =>
    match dget e (str "date") with
    | some d => (d.takeWhile (fun c => !(c == '-'))).takeWhile (fun c => !(c == '/'))
    | none => []

/-- The source's `filter_by_keyword`: keep the entries whose comma-split,
whitespace-stripped `keywords` field contains the keyword. -/
def filter_by_keyword (entries : List Dict) (keyword : Str) : List Dict :=
  entries.filter fun e =>
    ((splitOnChar ',' (dgetD e (str "keywords") [])).map pyStrip).contains keyword

/-- Lexicographic comparison of Python strings by code point (`<`). -/
def lexLt : Str → Str → Bool
  | [], [] => false
  | [], _ :: _ => true
  | _ :: _, [] => false
  | a :: as, b :: bs => if a < b then true else if b < a then false else lexLt as bs

/-- Stable descending insertion by `get_year`. -/
def insertYearDesc (e : Dict) : List Dict → List Dict
  | [] => [e]
  | x :: xs =>
    if lexLt (get_year e) (get_year x) then x :: insertYearDesc e xs
    else e :: x :: xs

/-- The source's `sort_by_year_desc`, i.e.
`sorted(entries, key=get_year, reverse=True)`: Python's sort is stable and
a stable descending sort is the unique permutation that is descending in the
key with ties in input order, which this insertion sort computes. -/
def sort_by_year_desc (entries : List Dict) : List Dict :=
  entries.foldr insertYearDesc []

/-- Python `text.replace(pat, rep)` for a non-empty pattern: left-to-right,
non-overlapping, the replacement is not re-scanned. -/
def replaceAllGo (pat rep : Str) : Nat → Str → Str
  | 0, s => s
  | _ + 1, [] => []
  | fuel + 1, c :: rest =>
    if pat.isPrefixOf (c :: rest) then rep ++ replaceAllGo pat rep fuel ((c :: rest).drop pat.length)
    else c :: replaceAllGo pat rep fuel rest

def replaceAll (pat rep s : Str) : Str := replaceAllGo pat rep s.length s

/-- One `re.sub` pass for a pattern of the form `\\cmd\{([^}]*)\}`
(the four markup conversions in `clean_latex`): at each position, match the
literal `\cmd{`, then the greedy non-`}` group, then `}`; replace the match
by `pre ++ group ++ post`, else emit one character and move on. -/
def subCmdGo (cmd pre post : Str) : Nat → Str → Str
  | 0, s => s
  | _ + 1, [] => []
  | fuel + 1, c :: rest =>
    if c = '\\' && (cmd ++ ['{']).isPrefixOf rest then
      let r2 := rest.drop (cmd.length + 1)
      let inner := r2.takeWhile (fun x => !(x == '}'))
      match r2.dropWhile (fun x => !(x == '}')) with
      | '}' :: r4 => pre ++ inner ++ post ++ subCmdGo cmd pre post fuel r4
      | _ => c :: subCmdGo cmd pre post fuel rest
    else c :: subCmdGo cmd pre post fuel rest

def subCmd (cmd pre post s : Str) : Str := subCmdGo cmd pre post s.length s

/-- The grouping-brace removal `re.sub(r"\{([^{}]*)\}", r"\1", text)`:
match `{`, a greedy run without braces, `}`; drop the braces. -/
def stripGroupsGo : Nat → Str → Str
  | 0, s => s
  | _ + 1, [] => []
  | fuel + 1, c :: rest =>
    if c = '{' then
      let inner := rest.takeWhile (fun x => !(x == '{' || x == '}'))
      match rest.dropWhile (fun x => !(x == '{' || x == '}')) with
      | '}' :: r4 => inner ++ stripGroupsGo fuel r4
      | _ => c :: stripGroupsGo fuel rest
    else c :: stripGroupsGo fuel rest

def stripGroups (s : Str) : Str := stripGroupsGo s.length s

/-- The stray-command removal `re.sub(r"\\[a-zA-Z]+\s*", "", text)`. -/
def stripCmdsGo : Nat → Str → Str
  | 0, s => s
  | _ + 1, [] => []
  | fuel + 1, c :: rest =>
    if c = '\\' && !(rest.takeWhile Char.isAlpha).isEmpty then
      stripCmdsGo fuel ((rest.dropWhile Char.isAlpha).dropWhile isPySpace)
    else c :: stripCmdsGo fuel rest

def stripCmds (s : Str) : Str := stripCmdsGo s.length s

/-- The source's `clean_latex`: convert common LaTeX markup to Markdown. -/
def clean_latex (text : Str) : Str :=
  if text.isEmpty then text
  else
    pyStrip <| stripCmds <|
      replaceAll (str "--") (str "–") <|
      replaceAll (str "~") (str " ") <|
      stripGroups <|
      subCmd (str "textsuperscript") (str "<sup>") (str "</sup>") <|
      subCmd (str "emph") (str "*") (str "*") <|
      subCmd (str "textit") (str "*") (str "*") <|
      subCmd (str "textbf") (str "**") (str "**") text

/-- The `MONTHS` table of the source. -/
def MONTHS : Dict :=
  [(str "01", str "January"), (str "02", str "February"), (str "03", str "March"),
   (str "04", str "April"), (str "05", str "May"), (str "06", str "June"),
   (str "07", str "July"), (str "08", str "August"), (str "09", str "September"),
   (str "10", str "October"), (str "11", str "November"), (str "12", str "December")]

/-- `MONTHS.get(k, k)`. -/
def monthName (k : Str) : Str := (dget MONTHS k).getD k

/-- Python `int(s)` restricted to the shapes occurring in bib dates
(optional surrounding whitespace, optional `+` sign, decimal digits); any
other input raises `ValueError`, modelled as `none`.  The repository's
dates never use underscores, unicode digits or a `-` sign (a piece of
`split("-")` cannot contain `-`). -/
def pyIntNat? (s : Str) : Option Nat :=
  let t := pyStrip s
  let t := if t.head? = some '+' then t.tail else t
  if t.isEmpty then none
  else if t.all Char.isDigit then
    some (t.foldl (fun n c => n * 10 + (c.toNat - 48)) 0)
  else none

/-- Decimal rendering of a number, as Python's f-string does. -/
def natStr (n : Nat) : Str := Nat.toDigits 10 n

/-- The source's `format_date` on a date without `/` (lines 196-201):
`D Month Y` for three dashed parts, `Month Y` for two, else the raw text.
Python can raise `ValueError` inside `int`, modelled as `none`. -/
def formatDateTail (date : Str) : Option Str :=
  let parts := splitOnChar '-' date
  if parts.length = 3 then
    match pyIntNat? (parts.getD 2 []) with
    | none => none
    | some d => some (natStr d ++ str " " ++ monthName (parts.getD 1 []) ++ str " " ++ parts.getD 0 [])
  else if parts.length = 2 then
    some (monthName (parts.getD 1 []) ++ str " " ++ parts.getD 0 [])
  else some date

/-- The source's `format_date` (lines 176-201), including the date-range
branch.  The tuple unpacking `start, end = date_str.split("/")` raises
unless the split has exactly two pieces; `int(...)` raises on non-numeric
day fields; both are modelled as `none`. -/
def format_date (date : Str) : Option Str :=
  if date.isEmpty then some (str "")
  else if date.contains '/' then
    match splitOnChar '/' date with
    | [s, e] =>
      let sp := splitOnChar '-' s
      let ep := splitOnChar '-' e
      if sp.length = 3 ∧ ep.length = 3 then
        match pyIntNat? (sp.getD 2 []), pyIntNat? (ep.getD 2 []) with
        | some d1, some d2 =>
          let sm := monthName (sp.getD 1 [])
          let em := monthName (ep.getD 1 [])
          if sp.getD 1 [] = ep.getD 1 [] then
            some (natStr d1 ++ str "–" ++ natStr d2 ++ str " " ++ sm ++ str " " ++ sp.getD 0 [])
          else
            some (natStr d1 ++ str " " ++ sm ++ str " – " ++ natStr d2 ++ str " " ++ em
              ++ str " " ++ sp.getD 0 [])
        | _, _ => none
      else formatDateTail date
    | _ => none
  else formatDateTail date

/-- The name bolded in author strings. -/
def BOLD_NAME : Str := str "Shrikrishna Bhat Kapu"

/-- The source's `bold_author`. -/
def bold_author (a : Str) : Str :=
  replaceAll BOLD_NAME (str "**" ++ BOLD_NAME ++ str "**") a

/-- The source's `file_exists`: empty paths are rejected, otherwise the
filesystem is queried; the filesystem is an external collaborator, passed
in as an opaque boolean query `fs`. -/
def file_exists (fs : Str → Bool) (rel : Str) : Bool :=
  if rel.isEmpty then false else fs rel

/-- The source's `resolve_file_path`. -/
def resolve_file_path (rel : Str) : Str := str "CVShrikrishnaBhat/" ++ rel

/-- The source's `_get_pub_type_label`; `entry["_type"]` raises `KeyError`
when absent, modelled as `none`. -/
def getPubTypeLabel (e : Dict) : Option Str :=
  match dget e (str "_type") with
  | none => none
  | some t => some (if t = str "article" then str "JOURNAL ARTICLES" else str "PREPRINTS")

/-- The publication-details string of `_build_detail_page` (lines 340-353):
a single journal part (with optional volume/number/pages) or else the note;
`". ".join` of at most one part. -/
def pubDetails (e : Dict) : Str :=
  let journal := clean_latex (dgetD e (str "journal") [])
  let volume := dgetD e (str "volume") []
  let number := clean_latex (dgetD e (str "number") [])
  let pages := clean_latex (dgetD e (str "pages") [])
  let note := clean_latex (dgetD e (str "note") [])
  let parts : List Str :=
    if !journal.isEmpty then
      let pd := str "<em>" ++ journal ++ str "</em>"
      let pd := if !volume.isEmpty then pd ++ str ", <strong>" ++ volume ++ str "</strong>" else pd
      let pd := if !number.isEmpty then pd ++ str "(" ++ number ++ str ")" else pd
      let pd := if !pages.isEmpty then pd ++ str ", " ++ pages else pd
      [pd]
    else if !note.isEmpty then [note]
    else []
  if parts.isEmpty then [] else pyJoin (str ". ") parts

/-- The link badges of `_build_detail_page` (lines 356-377), in order:
DOI, existing attached file, ResearchSquare eprint, arXiv eprint. -/
def linkBadges (fs : Str → Bool) (e : Dict) : List Str :=
  let doi := dgetD e (str "doi") []
  let fp := dgetD e (str "file") []
  let eprint := dgetD e (str "eprint") []
  let eptype := pyLower (dgetD e (str "eprinttype") [])
  (if !doi.isEmpty then
    [str "<a href=\"https://doi.org/" ++ doi
      ++ str "\" class=\"pub-link-badge pub-link-doi\" target=\"_blank\" rel=\"noopener\">DOI</a>"]
   else []) ++
  (if !fp.isEmpty && file_exists fs fp then
    [str "<a href=\"../../" ++ resolve_file_path fp
      ++ str "\" class=\"pub-link-badge pub-link-pdf\" target=\"_blank\" rel=\"noopener\">PDF</a>"]
   else []) ++
  (if !eprint.isEmpty && eptype = str "researchsquare" then
    [str "<a href=\"https://www.researchsquare.com/article/" ++ eprint
      ++ str "\" class=\"pub-link-badge pub-link-preprint\" target=\"_blank\" rel=\"noopener\">ResearchSquare</a>"]
   else []) ++
  (if !eprint.isEmpty && eptype = str "arxiv" then
    [str "<a href=\"https://arxiv.org/abs/" ++ eprint
      ++ str "\" class=\"pub-link-badge pub-link-preprint\" target=\"_blank\" rel=\"noopener\">arXiv</a>"]
   else [])

/-- The source's `_build_detail_page`: the full `.qmd` text of one
publication detail page.  `none` models the two ways the Python function
can raise: `entry["_type"]` on a record without `_type`, and `format_date`
on a malformed non-empty `date`. -/
def build_detail_page (fs : Str → Bool) (e : Dict) : Option Str :=
  match getPubTypeLabel e with
  | none => none
  | some pub_type =>
    let date := dgetD e (str "date") []
    match (if date.isEmpty then some (get_year e) else format_date date) with
    | none => none
    | some pub_date =>
      let title := clean_latex (dgetD e (str "title") (str "Untitled"))
      let author := clean_latex (dgetD e (str "author") [])
      let abstract := clean_latex (dgetD e (str "abstract") [])
      let pub_details := pubDetails e
      let badges := linkBadges fs e
      let links_html := if !badges.isEmpty then pyJoin (str "\n") badges else []
      let safe_title := replaceAll (str "\"") (str "\\\"") title
      let lines : List Str :=
        [str "---", str "title: \"" ++ safe_title ++ str "\"", str "toc: false", str "---", []]
        ++ [str "<span class=\"pub-type-badge\">" ++ pub_type ++ str "</span>", []]
        ++ [str "<div class=\"pub-meta-card\">"]
        ++ [str "<div class=\"pub-meta-row\">", str "<div class=\"pub-meta-label\">AUTHORS</div>",
            str "<div class=\"pub-meta-value\">" ++ author ++ str "</div>", str "</div>"]
        ++ [str "<div class=\"pub-meta-row\">", str "<div class=\"pub-meta-label\">PUBLISHED</div>",
            str "<div class=\"pub-meta-value\">" ++ pub_date ++ str "</div>", str "</div>"]
        ++ (if !pub_details.isEmpty then
              [str "<div class=\"pub-meta-row\">", str "<div class=\"pub-meta-label\">PUBLICATION DETAILS</div>",
               str "<div class=\"pub-meta-value\">" ++ pub_details ++ str "</div>", str "</div>"]
            else [])
        ++ (if !links_html.isEmpty then
              [str "<div class=\"pub-meta-row\">", str "<div class=\"pub-meta-label\">LINKS</div>",
               str "<div class=\"pub-meta-value\">" ++ links_html ++ str "</div>", str "</div>"]
            else [])
        ++ [str "</div>", []]
        ++ (if !abstract.isEmpty then [abstract, []] else [])
      some (pyJoin (str "\n") lines)

/-- The source's `_fmt_publication_bullet`: one numbered reference entry.
`none` models the `KeyError` of `entry["_key"]` on a record without a key. -/
def fmt_publication_bullet (e : Dict) (index : Nat) : Option Str :=
  match dget e (str "_key") with
  | none => none
  | some bib_key =>
    let title := clean_latex (dgetD e (str "title") (str "Untitled"))
    let author := bold_author (clean_latex (dgetD e (str "author") []))
    let year := get_year e
    let journal := clean_latex (dgetD e (str "journal") [])
    let volume := dgetD e (str "volume") []
    let number := clean_latex (dgetD e (str "number") [])
    let pages := clean_latex (dgetD e (str "pages") [])
    let doi := dgetD e (str "doi") []
    let note := clean_latex (dgetD e (str "note") [])
    let eprint := dgetD e (str "eprint") []
    let eptype := pyLower (dgetD e (str "eprinttype") [])
    let detail_url := str "publications/" ++ bib_key ++ str "/"
    let cite_parts : List Str :=
      [author ++ str " (" ++ year ++ str ")."]
      ++ [str "“[" ++ title ++ str "](" ++ detail_url ++ str ").”"]
      ++ (if !journal.isEmpty then
            let jcite := str "*" ++ journal ++ str "*"
            let jcite := if !volume.isEmpty then jcite ++ str ", " ++ volume else jcite
            let jcite := if !number.isEmpty then jcite ++ str "(" ++ number ++ str ")" else jcite
            let jcite := if !pages.isEmpty then jcite ++ str ", " ++ pages else jcite
            [jcite ++ str "."]
          else if !note.isEmpty then [str "*" ++ note ++ str ".*"]
          else [])
      ++ (if !doi.isEmpty then
            [str "DOI: [" ++ doi ++ str "](https://doi.org/" ++ doi ++ str ")."]
          else [])
      ++ (if !eprint.isEmpty && eptype = str "researchsquare" then
            [str "ResearchSquare: [" ++ eprint ++ str "](https://www.researchsquare.com/article/"
              ++ eprint ++ str ")."]
          else [])
    let citation := pyJoin (str " ") cite_parts
    some (pyJoin (str "\n") [natStr index ++ str ". " ++ citation, []])

/-!  Supporting lemmas. -/

theorem not_skip_of_wordChar {c : Char} (h : isWordChar c = true) : isSkipChar c = false := by
  by_contra hne
  simp only [Bool.not_eq_false] at hne
  simp only [isSkipChar, Bool.or_eq_true, beq_iff_eq] at hne
  rcases hne with ((((h1 | h1) | h1) | h1) | h1) <;> subst h1 <;> exact absurd h (by decide)

theorem not_pySpace_of_wordChar {c : Char} (h : isWordChar c = true) : isPySpace c = false := by
  by_contra hne
  simp only [Bool.not_eq_false] at hne
  simp only [isPySpace, Bool.or_eq_true, beq_iff_eq] at hne
  rcases hne with (((((h1 | h1) | h1) | h1) | h1) | h1) <;> subst h1 <;> exact absurd h (by decide)

theorem ne_percent_of_wordChar {c : Char} (h : isWordChar c = true) : c ≠ '%' := by
  rintro rfl; exact absurd h (by decide)

theorem length_dropWhile_le (p : α → Bool) (l : List α) :
    (l.dropWhile p).length ≤ l.length :=
  (List.dropWhile_sublist p).length_le

/-! Lookup lemmas for the dict model. -/

theorem dget_foldl (k : Str) (d : Dict) :
    ∀ i : Option Str,
      d.foldl (fun r p => if p.1 = k then some p.2 else r) i =
        match dget d k with
        | some v => some v
        | none => i := by
  induction d with
  | nil => intro i; rfl
  | cons a d ih =>
    intro i
    show d.foldl _ (if a.1 = k then some a.2 else i) = _
    rw [ih]
    show _ = match d.foldl (fun r p => if p.1 = k then some p.2 else r)
        (if a.1 = k then some a.2 else none) with
      | some v => some v
      | none => i
    rw [ih]
    by_cases h : a.1 = k <;> simp [h] <;> cases dget d k <;> rfl

theorem dget_append (d₁ d₂ : Dict) (k : Str) :
    dget (d₁ ++ d₂) k =
      match dget d₂ k with
      | some v => some v
      | none => dget d₁ k := by
  show (d₁ ++ d₂).foldl _ none = _
  rw [List.foldl_append, dget_foldl]
  rfl

theorem dget_dset (d : Dict) (a x k : Str) :
    dget (dset d a x) k = if a = k then some x else dget d k := by
  rw [dset, dget_append]
  by_cases h : a = k <;> simp [dget, h]

/-! The balanced-brace scan consumes a balanced text without the depth
reaching zero, then stops at the closing brace of the enclosing group. -/

theorem scanBraced_cons (c : Char) (rest : Str) (d : Nat) (acc : Str) :
    scanBraced (c :: rest) d acc =
      (let d' := if c = '{' then d + 1 else if c = '}' then d - 1 else d
       if d' = 0 then (acc.reverse, rest) else scanBraced rest d' (c :: acc)) := rfl

theorem scanBraced_open (rest : Str) (d : Nat) (acc : Str) :
    scanBraced ('{' :: rest) d acc = scanBraced rest (d + 1) ('{' :: acc) := by
  rw [scanBraced_cons]
  show (if d + 1 = 0 then (acc.reverse, rest) else scanBraced rest (d + 1) ('{' :: acc)) = _
  rw [if_neg (by omega)]

theorem scanBraced_close (rest : Str) (d : Nat) (acc : Str) (hd : 2 ≤ d) :
    scanBraced ('}' :: rest) d acc = scanBraced rest (d - 1) ('}' :: acc) := by
  rw [scanBraced_cons]
  show (if d - 1 = 0 then (acc.reverse, rest) else scanBraced rest (d - 1) ('}' :: acc)) = _
  rw [if_neg (by omega)]

theorem scanBraced_close_one (rest : Str) (acc : Str) :
    scanBraced ('}' :: rest) 1 acc = (acc.reverse, rest) := rfl

theorem scanBraced_other {c : Char} (hc1 : c ≠ '{') (hc2 : c ≠ '}')
    (rest : Str) (d : Nat) (acc : Str) (hd : 1 ≤ d) :
    scanBraced (c :: rest) d acc = scanBraced rest d (c :: acc) := by
  rw [scanBraced_cons]
  simp only [if_neg hc1, if_neg hc2]
  rw [if_neg (by omega)]

theorem scanBraced_append {s : Str} (hs : Balanced s) :
    ∀ (rest acc : Str) (d : Nat), 1 ≤ d →
      scanBraced (s ++ rest) d acc = scanBraced rest d (s.reverse ++ acc) := by
  induction hs with
  | nil => intro rest acc d _; simp
  | other c s hc1 hc2 _ ih =>
    intro rest acc d hd
    rw [List.cons_append, scanBraced_other hc1 hc2 _ d _ hd, ih rest (c :: acc) d hd]
    simp
  | nest s t _ _ ihs iht =>
    intro rest acc d hd
    have h1 : ('{' :: (s ++ '}' :: t)) ++ rest = '{' :: (s ++ ('}' :: (t ++ rest))) := by simp
    rw [h1, scanBraced_open, ihs ('}' :: (t ++ rest)) ('{' :: acc) (d + 1) (by omega),
      scanBraced_close _ _ _ (by omega), (show d + 1 - 1 = d by omega),
      iht rest _ d hd]
    simp

theorem scanBraced_closes {s : Str} (hs : Balanced s) (rest acc : Str) :
    scanBraced (s ++ '}' :: rest) 1 acc = (acc.reverse ++ s, rest) := by
  rw [scanBraced_append hs ('}' :: rest) acc 1 (le_refl 1), scanBraced_close_one]
  simp

/-! Idempotence of stripping and lowering. -/

theorem dropWhile_idem (p : α → Bool) (l : List α) :
    (l.dropWhile p).dropWhile p = l.dropWhile p := by
  cases h : l.dropWhile p with
  | nil => rfl
  | cons a t =>
    have hh := List.head?_dropWhile_not p l
    rw [h] at hh
    simp only [List.head?_cons] at hh
    exact List.dropWhile_cons_of_neg (by simp [hh])

theorem head?_dropWhile_false (p : α → Bool) (l : List α) {a : α}
    (h : (l.dropWhile p).head? = some a) : p a = false := by
  have hx := List.head?_dropWhile_not p l
  rw [h] at hx
  exact hx

theorem prefix_of_reverse_dropWhile (p : α → Bool) (m : List α) :
    (m.reverse.dropWhile p).reverse <+: m := by
  have h2 := List.reverse_prefix.mpr
    (show m.reverse.dropWhile p <:+ m.reverse from List.dropWhile_suffix p)
  rwa [List.reverse_reverse] at h2

theorem pyStrip_head_not (l : Str) :
    ∀ a, (pyStrip l).head? = some a → isPySpace a = false := by
  intro a ha
  have hpre : pyStrip l <+: l.dropWhile isPySpace :=
    prefix_of_reverse_dropWhile isPySpace (l.dropWhile isPySpace)
  obtain ⟨u, hu⟩ := hpre
  have hma : (l.dropWhile isPySpace).head? = some a := by
    rw [← hu]
    cases hh : pyStrip l with
    | nil => rw [hh] at ha; simp at ha
    | cons b t =>
      rw [hh] at ha
      simp only [List.head?_cons, Option.some.injEq] at ha
      subst ha
      simp
  exact head?_dropWhile_false isPySpace l hma

theorem pyStrip_last_not (l : Str) :
    ∀ a, (pyStrip l).reverse.head? = some a → isPySpace a = false := by
  intro a ha
  unfold pyStrip at ha
  rw [List.reverse_reverse] at ha
  exact head?_dropWhile_false isPySpace (l.dropWhile isPySpace).reverse ha

theorem dropWhile_eq_self_of_head (p : α → Bool) (l : List α)
    (h : ∀ a, l.head? = some a → p a = false) : l.dropWhile p = l := by
  cases l with
  | nil => rfl
  | cons a t => exact List.dropWhile_cons_of_neg (by simp [h a rfl])

theorem pyStrip_idem (l : Str) : pyStrip (pyStrip l) = pyStrip l := by
  have h1 : (pyStrip l).dropWhile isPySpace = pyStrip l :=
    dropWhile_eq_self_of_head _ _ (pyStrip_head_not l)
  show (((pyStrip l).dropWhile isPySpace).reverse.dropWhile isPySpace).reverse = pyStrip l
  rw [h1, dropWhile_eq_self_of_head _ _ (pyStrip_last_not l), List.reverse_reverse]

theorem head?_mem {l : List α} {a : α} (ha : l.head? = some a) : a ∈ l := by
  cases l with
  | nil => simp at ha
  | cons b t =>
    simp only [List.head?_cons, Option.some.injEq] at ha
    subst ha
    exact List.mem_cons_self _ _

theorem pyStrip_of_no_space {l : Str} (h : ∀ c ∈ l, isPySpace c = false) :
    pyStrip l = l := by
  have h1 : l.dropWhile isPySpace = l :=
    dropWhile_eq_self_of_head _ _ (fun a ha => h a (head?_mem ha))
  show ((l.dropWhile isPySpace).reverse.dropWhile isPySpace).reverse = l
  rw [h1, dropWhile_eq_self_of_head _ _ (fun a ha => h a (by
    have := head?_mem ha
    simpa using this)), List.reverse_reverse]

theorem pyStrip_dropWhile (l : Str) :
    pyStrip (l.dropWhile isPySpace) = pyStrip l := by
  show (((l.dropWhile isPySpace).dropWhile isPySpace).reverse.dropWhile isPySpace).reverse = _
  rw [dropWhile_idem]
  rfl

theorem toLower_idem (c : Char) : c.toLower.toLower = c.toLower := by
  show (Char.toLower c).toLower = Char.toLower c
  unfold Char.toLower
  by_cases h : c.toNat ≥ 65 ∧ c.toNat ≤ 90
  · rw [if_pos h]
    have hvalid : (c.toNat + 32).isValidChar := Or.inl (by omega)
    have htn : (Char.ofNat (c.toNat + 32)).toNat = c.toNat + 32 := by
      rw [Char.ofNat, dif_pos hvalid]; rfl
    rw [htn, if_neg (by omega)]
  · rw [if_neg h, if_neg h]

theorem pyLower_idem (l : Str) : pyLower (pyLower l) = pyLower l := by
  unfold pyLower
  rw [List.map_map]
  exact List.map_congr_left fun c _ => toLower_idem c

/-! Unfolding equations and termination of the scanning loops: each loop
iteration consumes at least one character, so running a loop with fuel at
least the input length gives the loop's final answer, independently of the
exact fuel.  This is the formal counterpart of termination of the source's
`while` loops. -/

theorem parseFieldsGo_succ (f : Nat) (s : Str) (acc : Dict) :
    parseFieldsGo (f + 1) s acc =
      match parseFieldsStep s acc with
      | .done a => a
      | .cont s' a' => parseFieldsGo f s' a' := rfl

theorem parseFieldsGo_nil (f : Nat) (acc : Dict) : parseFieldsGo f [] acc = acc := by
  cases f <;> rfl

theorem scanBraced_snd_le : ∀ (l : Str) (d : Nat) (acc : Str),
    (scanBraced l d acc).2.length ≤ l.length := by
  intro l
  induction l with
  | nil => intro d acc; simp [scanBraced]
  | cons c rest ih =>
    intro d acc
    rw [scanBraced_cons]
    show (if (if c = '{' then d + 1 else if c = '}' then d - 1 else d) = 0
        then ((acc.reverse : Str), rest)
        else scanBraced rest (if c = '{' then d + 1 else if c = '}' then d - 1 else d)
          (c :: acc)).2.length ≤ (c :: rest).length
    generalize (if c = '{' then d + 1 else if c = '}' then d - 1 else d) = d'
    split
    · exact Nat.le_succ_of_le (le_refl _)
    · exact Nat.le_succ_of_le (ih _ _)

theorem parseFieldsCore_cont_length {s1 s' : Str} {acc a' : Dict}
    (h : parseFieldsCore s1 acc = .cont s' a') : s'.length < s1.length := by
  cases s1 with
  | nil => exact FStep.noConfusion h
  | cons c s2 =>
    simp only [parseFieldsCore] at h
    split at h
    · -- comment line
      rename_i hc
      cases h
      subst hc
      rw [List.dropWhile_cons_of_pos (by decide)]
      exact Nat.lt_succ_of_le (length_dropWhile_le _ _)
    · split at h
      · -- regex failed at once: advance one character
        cases h
        exact Nat.lt_succ_of_le (le_refl _)
      · rename_i hnm
        have hword : isWordChar c = true := by
          by_contra hw
          rw [List.takeWhile_cons_of_neg hw] at hnm
          exact hnm rfl
        have hdw : ((c :: s2).dropWhile isWordChar).length ≤ s2.length := by
          rw [List.dropWhile_cons_of_pos hword]
          exact length_dropWhile_le _ _
        split at h
        · -- no `=` found (input exhausted after the name)
          cases h
          exact Nat.lt_succ_of_le (le_refl _)
        · rename_i e r2 heq
          have h1 : r2.length + 1 ≤ s2.length := by
            have := length_dropWhile_le isPySpace ((c :: s2).dropWhile isWordChar)
            rw [heq] at this
            simpa using le_trans this hdw
          split at h
          · split at h
            · exact FStep.noConfusion h
            · rename_i d r4 heq2
              have h2 : r4.length + 1 ≤ r2.length := by
                have := length_dropWhile_le isPySpace r2
                rw [heq2] at this
                simpa using this
              split at h
              · -- braced value
                cases h
                have := scanBraced_snd_le r4 1 []
                simp only [List.length_cons]
                omega
              · split at h
                · -- quoted value
                  cases h
                  have h3 := length_dropWhile_le (fun x => !(x == '"')) r4
                  have h4 : ((r4.dropWhile (fun x => !(x == '"'))).drop 1).length
                      ≤ (r4.dropWhile (fun x => !(x == '"'))).length := by
                    rw [List.length_drop]
                    omega
                  simp only [List.length_cons]
                  omega
                · -- bare value
                  cases h
                  have h3 := length_dropWhile_le notDelim (d :: r4)
                  simp only [List.length_cons] at h3 ⊢
                  omega
          · -- character after the name is not `=`
            cases h
            exact Nat.lt_succ_of_le (le_refl _)

theorem parseFieldsStep_cont_length {s s' : Str} {acc a' : Dict}
    (h : parseFieldsStep s acc = .cont s' a') : s'.length < s.length :=
  lt_of_lt_of_le (parseFieldsCore_cont_length h) (length_dropWhile_le _ _)

theorem parseFieldsGo_fuel_aux :
    ∀ (n : Nat) (s : Str) (acc : Dict) (f : Nat), s.length = n → n ≤ f →
      parseFieldsGo f s acc = parseFieldsGo n s acc := by
  intro n
  induction n using Nat.strong_induction_on with
  | _ n ih =>
    intro s acc f hlen hf
    cases s with
    | nil => rw [parseFieldsGo_nil, ← hlen, parseFieldsGo_nil]
    | cons c s2 =>
      subst hlen
      obtain ⟨f', rfl⟩ : ∃ f', f = f' + 1 := ⟨f - 1, by simp at hf; omega⟩
      simp only [List.length_cons] at ih
      rw [parseFieldsGo_succ, (show (c :: s2).length = s2.length + 1 from rfl),
        parseFieldsGo_succ]
      cases hstep : parseFieldsStep (c :: s2) acc with
      | done a => rfl
      | cont s' a' =>
        have hlt := parseFieldsStep_cont_length hstep
        simp only [List.length_cons] at hlt hf
        show parseFieldsGo f' s' a' = parseFieldsGo s2.length s' a'
        calc parseFieldsGo f' s' a'
            = parseFieldsGo s'.length s' a' := ih _ (by omega) _ _ _ rfl (by omega)
          _ = parseFieldsGo s2.length s' a' := (ih _ (by omega) _ _ _ rfl (by omega)).symm

theorem parseFieldsGo_fuel {s : Str} {acc : Dict} {f : Nat} (hf : s.length ≤ f) :
    parseFieldsGo f s acc = parseFieldsGo s.length s acc :=
  parseFieldsGo_fuel_aux s.length s acc f rfl hf

theorem matchMarker_some_length {s ty key rest : Str}
    (h : matchMarker s = some (ty, key, rest)) : rest.length < s.length := by
  cases s with
  | nil => exact Option.noConfusion h
  | cons c s2 =>
    simp only [matchMarker] at h
    split at h
    · split at h
      · exact Option.noConfusion h
      · split at h
        · rename_i b r2 heq
          split at h
          · split at h
            · exact Option.noConfusion h
            · split at h
              · rename_i d r6 heq2
                split at h
                · cases h
                  have hA : r2.length + 1 ≤ s2.length := by
                    have := length_dropWhile_le isWordChar s2
                    rw [heq] at this
                    simpa using this
                  have hB : rest.length + 1
                      ≤ ((r2.dropWhile isPySpace).dropWhile isKeyChar).length := by
                    have := length_dropWhile_le isPySpace
                      ((r2.dropWhile isPySpace).dropWhile isKeyChar)
                    rw [heq2] at this
                    simpa using this
                  have hC : ((r2.dropWhile isPySpace).dropWhile isKeyChar).length
                      ≤ r2.length :=
                    le_trans (length_dropWhile_le _ _) (length_dropWhile_le _ _)
                  simp only [List.length_cons]
                  omega
                · exact Option.noConfusion h
              · exact Option.noConfusion h
          · exact Option.noConfusion h
        · exact Option.noConfusion h
    · exact Option.noConfusion h

theorem parseBibGo_succ (f : Nat) (s : Str) :
    parseBibGo (f + 1) s =
      match parseBibStep s with
      | .done => []
      | .yield r after => r :: parseBibGo f after
      | .skip rest => parseBibGo f rest := rfl

theorem parseBibGo_nil (f : Nat) : parseBibGo f [] = [] := by
  cases f <;> rfl

theorem parseBibStep_yield_length {s : Str} {r : Dict} {after : Str}
    (h : parseBibStep s = .yield r after) : after.length < s.length := by
  cases s with
  | nil => exact BStep.noConfusion h
  | cons c s2 =>
    simp only [parseBibStep] at h
    split at h
    · rename_i ty key after' heq
      cases h
      exact matchMarker_some_length heq
    · exact BStep.noConfusion h

theorem parseBibStep_skip_length {s rest : Str}
    (h : parseBibStep s = .skip rest) : rest.length < s.length := by
  cases s with
  | nil => exact BStep.noConfusion h
  | cons c s2 =>
    simp only [parseBibStep] at h
    split at h
    · exact BStep.noConfusion h
    · cases h
      exact Nat.lt_succ_of_le (le_refl _)

theorem parseBibGo_fuel_aux :
    ∀ (n : Nat) (s : Str) (f : Nat), s.length = n → n ≤ f →
      parseBibGo f s = parseBibGo n s := by
  intro n
  induction n using Nat.strong_induction_on with
  | _ n ih =>
    intro s f hlen hf
    cases s with
    | nil => rw [parseBibGo_nil, ← hlen, parseBibGo_nil]
    | cons c s2 =>
      subst hlen
      obtain ⟨f', rfl⟩ : ∃ f', f = f' + 1 := ⟨f - 1, by simp at hf; omega⟩
      simp only [List.length_cons] at ih
      rw [parseBibGo_succ, (show (c :: s2).length = s2.length + 1 from rfl), parseBibGo_succ]
      cases hstep : parseBibStep (c :: s2) with
      | done => rfl
      | yield r after =>
        have hlt := parseBibStep_yield_length hstep
        simp only [List.length_cons] at hlt hf
        show r :: parseBibGo f' after = r :: parseBibGo s2.length after
        rw [ih after.length (by omega) after f' rfl (by omega),
          ih after.length (by omega) after s2.length rfl (by omega)]
      | skip rest =>
        have hlt := parseBibStep_skip_length hstep
        simp only [List.length_cons] at hlt hf
        show parseBibGo f' rest = parseBibGo s2.length rest
        rw [ih rest.length (by omega) rest f' rfl (by omega),
          ih rest.length (by omega) rest s2.length rfl (by omega)]

theorem parseBibGo_fuel {s : Str} {f : Nat} (hf : s.length ≤ f) :
    parseBibGo f s = parseBibGo s.length s :=
  parseBibGo_fuel_aux s.length s f rfl hf

/-! One loop iteration on a well-formed `name = value` field, for each of
the three value forms. -/

theorem takeWhile_word_name (nm : Str) (hword : ∀ c ∈ nm, isWordChar c = true) (Y : Str) :
    (nm ++ '=' :: Y).takeWhile isWordChar = nm := by
  rw [List.takeWhile_append_of_pos hword, List.takeWhile_cons_of_neg (by decide),
    List.append_nil]

theorem dropWhile_word_name (nm : Str) (hword : ∀ c ∈ nm, isWordChar c = true) (Y : Str) :
    (nm ++ '=' :: Y).dropWhile isWordChar = '=' :: Y := by
  rw [List.dropWhile_append_of_pos hword, List.dropWhile_cons_of_neg (by decide)]

theorem parseFieldsStep_braced (nm inner rest : Str) (acc : Dict)
    (hne : nm ≠ []) (hword : ∀ c ∈ nm, isWordChar c = true) (hbal : Balanced inner) :
    parseFieldsStep (nm ++ '=' :: '{' :: (inner ++ '}' :: rest)) acc =
      .cont rest (dset acc (pyLower nm) (pyStrip inner)) := by
  obtain ⟨a, nm', rfl⟩ : ∃ a nm', nm = a :: nm' := by
    cases nm with
    | nil => exact absurd rfl hne
    | cons a nm' => exact ⟨a, nm', rfl⟩
  have ha := hword a (List.mem_cons_self _ _)
  have hpc : ¬ a = '%' := ne_percent_of_wordChar ha
  have h1 : (a :: (nm' ++ '=' :: '{' :: (inner ++ '}' :: rest))).takeWhile isWordChar
      = a :: nm' := by
    have := takeWhile_word_name (a :: nm') hword ('{' :: (inner ++ '}' :: rest))
    rwa [List.cons_append] at this
  have h2 : (a :: (nm' ++ '=' :: '{' :: (inner ++ '}' :: rest))).dropWhile isWordChar
      = '=' :: '{' :: (inner ++ '}' :: rest) := by
    have := dropWhile_word_name (a :: nm') hword ('{' :: (inner ++ '}' :: rest))
    rwa [List.cons_append] at this
  have h3 : ('=' :: '{' :: (inner ++ '}' :: rest) : Str).dropWhile isPySpace
      = '=' :: '{' :: (inner ++ '}' :: rest) := List.dropWhile_cons_of_neg (by decide)
  have h4 : ('{' :: (inner ++ '}' :: rest) : Str).dropWhile isPySpace
      = '{' :: (inner ++ '}' :: rest) := List.dropWhile_cons_of_neg (by decide)
  have h5 : scanBraced (inner ++ '}' :: rest) 1 [] = (inner, rest) := by
    rw [scanBraced_closes hbal]
    rfl
  unfold parseFieldsStep
  rw [List.cons_append, List.dropWhile_cons_of_neg (by simp [not_skip_of_wordChar ha])]
  simp [parseFieldsCore, hpc, h1, h2, h3, h4, h5]

theorem parseFieldsStep_quoted (nm inner rest : Str) (acc : Dict)
    (hne : nm ≠ []) (hword : ∀ c ∈ nm, isWordChar c = true)
    (hq : ∀ c ∈ inner, c ≠ '"') :
    parseFieldsStep (nm ++ '=' :: '"' :: (inner ++ '"' :: rest)) acc =
      .cont rest (dset acc (pyLower nm) (pyStrip inner)) := by
  obtain ⟨a, nm', rfl⟩ : ∃ a nm', nm = a :: nm' := by
    cases nm with
    | nil => exact absurd rfl hne
    | cons a nm' => exact ⟨a, nm', rfl⟩
  have ha := hword a (List.mem_cons_self _ _)
  have hpc : ¬ a = '%' := ne_percent_of_wordChar ha
  have h1 : (a :: (nm' ++ '=' :: '"' :: (inner ++ '"' :: rest))).takeWhile isWordChar
      = a :: nm' := by
    have := takeWhile_word_name (a :: nm') hword ('"' :: (inner ++ '"' :: rest))
    rwa [List.cons_append] at this
  have h2 : (a :: (nm' ++ '=' :: '"' :: (inner ++ '"' :: rest))).dropWhile isWordChar
      = '=' :: '"' :: (inner ++ '"' :: rest) := by
    have := dropWhile_word_name (a :: nm') hword ('"' :: (inner ++ '"' :: rest))
    rwa [List.cons_append] at this
  have h3 : ('=' :: '"' :: (inner ++ '"' :: rest) : Str).dropWhile isPySpace
      = '=' :: '"' :: (inner ++ '"' :: rest) := List.dropWhile_cons_of_neg (by decide)
  have h4 : ('"' :: (inner ++ '"' :: rest) : Str).dropWhile isPySpace
      = '"' :: (inner ++ '"' :: rest) := List.dropWhile_cons_of_neg (by decide)
  have hqpos : ∀ c ∈ inner, (fun x => !(x == '"')) c := by
    intro c hc
    simpa using hq c hc
  have h5 : (inner ++ '"' :: rest).takeWhile (fun x => !(x == '"')) = inner := by
    rw [List.takeWhile_append_of_pos hqpos, List.takeWhile_cons_of_neg (by simp),
      List.append_nil]
  have h6 : (inner ++ '"' :: rest).dropWhile (fun x => !(x == '"')) = '"' :: rest := by
    rw [List.dropWhile_append_of_pos hqpos, List.dropWhile_cons_of_neg (by simp)]
  unfold parseFieldsStep
  rw [List.cons_append, List.dropWhile_cons_of_neg (by simp [not_skip_of_wordChar ha])]
  simp [parseFieldsCore, hpc, h1, h2, h3, h4, h5, h6]

theorem parseFieldsStep_bare (nm v rest : Str) (d : Char) (acc : Dict)
    (hne : nm ≠ []) (hword : ∀ c ∈ nm, isWordChar c = true)
    (hdelim : d = ',' ∨ d = '}' ∨ d = '\n')
    (hv : ∀ c ∈ v, notDelim c = true)
    (hv0 : v.dropWhile isPySpace ≠ [])
    (hv1 : ∀ c, (v.dropWhile isPySpace).head? = some c → c ≠ '{' ∧ c ≠ '"') :
    parseFieldsStep (nm ++ '=' :: (v ++ d :: rest)) acc =
      .cont (d :: rest) (dset acc (pyLower nm) (pyStrip v)) := by
  obtain ⟨a, nm', rfl⟩ : ∃ a nm', nm = a :: nm' := by
    cases nm with
    | nil => exact absurd rfl hne
    | cons a nm' => exact ⟨a, nm', rfl⟩
  have ha := hword a (List.mem_cons_self _ _)
  obtain ⟨b, v', hbv⟩ : ∃ b v', v.dropWhile isPySpace = b :: v' := by
    cases hx : v.dropWhile isPySpace with
    | nil => exact absurd hx hv0
    | cons b v' => exact ⟨b, v', rfl⟩
  obtain ⟨hb1, hb2⟩ := hv1 b (by rw [hbv]; rfl)
  have hvsub : ∀ c ∈ b :: v', notDelim c = true := by
    intro c hc
    exact hv c (List.dropWhile_subset isPySpace (hbv ▸ hc))
  have hdnd : notDelim d = false := by
    rcases hdelim with rfl | rfl | rfl <;> decide
  have hpc : ¬ a = '%' := ne_percent_of_wordChar ha
  have h1 : (a :: (nm' ++ '=' :: (v ++ d :: rest))).takeWhile isWordChar = a :: nm' := by
    have := takeWhile_word_name (a :: nm') hword (v ++ d :: rest)
    rwa [List.cons_append] at this
  have h2 : (a :: (nm' ++ '=' :: (v ++ d :: rest))).dropWhile isWordChar
      = '=' :: (v ++ d :: rest) := by
    have := dropWhile_word_name (a :: nm') hword (v ++ d :: rest)
    rwa [List.cons_append] at this
  have h3 : ('=' :: (v ++ d :: rest) : Str).dropWhile isPySpace
      = '=' :: (v ++ d :: rest) := List.dropWhile_cons_of_neg (by decide)
  have h4 : (v ++ d :: rest).dropWhile isPySpace = b :: (v' ++ d :: rest) := by
    rw [List.dropWhile_append, hbv]
    simp
  have h5 : (b :: (v' ++ d :: rest)).takeWhile notDelim = b :: v' := by
    have : ((b :: v') ++ d :: rest).takeWhile notDelim = b :: v' := by
      rw [List.takeWhile_append_of_pos hvsub, List.takeWhile_cons_of_neg (by simp [hdnd]),
        List.append_nil]
    rwa [List.cons_append] at this
  have h6 : (b :: (v' ++ d :: rest)).dropWhile notDelim = d :: rest := by
    have : ((b :: v') ++ d :: rest).dropWhile notDelim = d :: rest := by
      rw [List.dropWhile_append_of_pos hvsub, List.dropWhile_cons_of_neg (by simp [hdnd])]
    rwa [List.cons_append] at this
  have h7 : pyStrip (pyStrip (b :: v')) = pyStrip v := by
    rw [pyStrip_idem, ← hbv, pyStrip_dropWhile]
  unfold parseFieldsStep
  rw [List.cons_append, List.dropWhile_cons_of_neg (by simp [not_skip_of_wordChar ha])]
  simp [parseFieldsCore, hpc, h1, h2, h3, h4, h5, h6, h7, hb1, hb2]

/-! Lexicographic comparison is a strict weak order, and the insertion sort
implementing `sorted(..., reverse=True)` yields a permutation that is
pairwise descending in the key. -/

theorem lexLt_cons (a b : Char) (as bs : Str) :
    lexLt (a :: as) (b :: bs) =
      if a < b then true else if b < a then false else lexLt as bs := rfl

theorem lexLt_nil_right (x : Str) : lexLt x [] = false := by cases x <;> rfl

theorem lexLt_nil_cons (b : Char) (bs : Str) : lexLt [] (b :: bs) = true := rfl

theorem lexLt_asymm : ∀ (x y : Str), lexLt x y = true → lexLt y x = false := by
  intro x
  induction x with
  | nil => intro y _; exact lexLt_nil_right y
  | cons a as ih =>
    intro y h
    cases y with
    | nil => rw [lexLt_nil_right] at h; exact absurd h (by simp)
    | cons b bs =>
      rw [lexLt_cons] at h
      rw [lexLt_cons]
      by_cases hab : a < b
      · rw [if_neg (lt_asymm hab), if_pos hab]
      · rw [if_neg hab] at h
        by_cases hba : b < a
        · rw [if_pos hba] at h; exact absurd h (by simp)
        · rw [if_neg hba] at h
          rw [if_neg hba, if_neg hab]
          exact ih bs h

theorem lexLt_not_trans :
    ∀ (x y z : Str), lexLt x y = false → lexLt y z = false → lexLt x z = false := by
  intro x
  induction x with
  | nil =>
    intro y z h1 h2
    cases y with
    | nil =>
      cases z with
      | nil => rfl
      | cons c cs => rw [lexLt_nil_cons] at h2; exact absurd h2 (by simp)
    | cons b bs => rw [lexLt_nil_cons] at h1; exact absurd h1 (by simp)
  | cons a as ih =>
    intro y z h1 h2
    cases z with
    | nil => exact lexLt_nil_right _
    | cons c cs =>
      cases y with
      | nil => rw [lexLt_nil_cons] at h2; exact absurd h2 (by simp)
      | cons b bs =>
        rw [lexLt_cons] at h1 h2 ⊢
        by_cases hab : a < b
        · rw [if_pos hab] at h1; exact absurd h1 (by simp)
        · rw [if_neg hab] at h1
          by_cases hbc : b < c
          · rw [if_pos hbc] at h2; exact absurd h2 (by simp)
          · rw [if_neg hbc] at h2
            have hba : b ≤ a := not_lt.mp hab
            have hcb : c ≤ b := not_lt.mp hbc
            have hac : ¬ a < c := not_lt.mpr (le_trans hcb hba)
            rw [if_neg hac]
            by_cases hca : c < a
            · rw [if_pos hca]
            · rw [if_neg hca]
              by_cases hba' : b < a
              · exact absurd (lt_of_le_of_lt hcb hba') hca
              · rw [if_neg hba'] at h1
                by_cases hcb' : c < b
                · exact absurd (lt_of_lt_of_le hcb' hba) hca
                · rw [if_neg hcb'] at h2
                  exact ih bs cs h1 h2

theorem insertYearDesc_eq (e x : Dict) (xs : List Dict) :
    insertYearDesc e (x :: xs) =
      if lexLt (get_year e) (get_year x) = true then x :: insertYearDesc e xs
      else e :: x :: xs := rfl

theorem insertYearDesc_perm (e : Dict) (l : List Dict) :
    (insertYearDesc e l).Perm (e :: l) := by
  induction l with
  | nil => exact List.Perm.refl _
  | cons x xs ih =>
    rw [insertYearDesc_eq]
    by_cases h : lexLt (get_year e) (get_year x) = true
    · rw [if_pos h]
      exact (ih.cons x).trans (List.Perm.swap e x xs)
    · rw [if_neg h]

/-- Descending order on the derived year, as produced by
`sorted(..., key=get_year, reverse=True)`. -/
def YearDescOrder (x y : Dict) : Prop := lexLt (get_year x) (get_year y) = false

theorem insertYearDesc_pairwise (e : Dict) (l : List Dict)
    (hl : l.Pairwise YearDescOrder) :
    (insertYearDesc e l).Pairwise YearDescOrder := by
  induction l with
  | nil => simp [insertYearDesc, YearDescOrder]
  | cons x xs ih =>
    rcases List.pairwise_cons.mp hl with ⟨hx, hxs⟩
    rw [insertYearDesc_eq]
    by_cases h : lexLt (get_year e) (get_year x) = true
    · rw [if_pos h]
      refine List.pairwise_cons.mpr ⟨?_, ih hxs⟩
      intro y hy
      have hy' : y = e ∨ y ∈ xs := by
        have := (insertYearDesc_perm e xs).mem_iff.mp hy
        simpa using this
      rcases hy' with rfl | hy'
      · exact lexLt_asymm _ _ h
      · exact hx y hy'
    · rw [if_neg h]
      have he : lexLt (get_year e) (get_year x) = false := by simpa using h
      refine List.pairwise_cons.mpr ⟨?_, hl⟩
      intro y hy
      rcases List.mem_cons.mp hy with rfl | hy'
      · exact he
      · exact lexLt_not_trans _ _ _ he (hx y hy')

theorem sort_by_year_desc_perm (es : List Dict) : (sort_by_year_desc es).Perm es := by
  induction es with
  | nil => exact List.Perm.refl _
  | cons e es ih =>
    show (insertYearDesc e (sort_by_year_desc es)).Perm (e :: es)
    exact (insertYearDesc_perm e _).trans (ih.cons e)

theorem sort_by_year_desc_pairwise (es : List Dict) :
    (sort_by_year_desc es).Pairwise YearDescOrder := by
  induction es with
  | nil => exact List.Pairwise.nil
  | cons e es ih => exact insertYearDesc_pairwise e _ ih

/-! Every binding stored by the field loop has a lowercased key and a
stripped value; the scan of `parse_bib` projects onto the marker scan. -/

theorem parseFieldsStep_chars (s : Str) (acc : Dict) :
    (∃ a, parseFieldsStep s acc = .done a ∧ a = acc) ∨
    (∃ s', parseFieldsStep s acc = .cont s' acc) ∨
    (∃ s' nm v, parseFieldsStep s acc = .cont s' (dset acc (pyLower nm) (pyStrip v))) := by
  unfold parseFieldsStep
  cases hx : s.dropWhile isSkipChar with
  | nil => exact Or.inl ⟨acc, rfl, rfl⟩
  | cons c s2 =>
    simp only [parseFieldsCore]
    split
    · exact Or.inr (Or.inl ⟨_, rfl⟩)
    · split
      · exact Or.inr (Or.inl ⟨_, rfl⟩)
      · split
        · exact Or.inr (Or.inl ⟨_, rfl⟩)
        · split
          · split
            · exact Or.inl ⟨acc, rfl, rfl⟩
            · split
              · exact Or.inr (Or.inr ⟨_, _, _, rfl⟩)
              · split
                · exact Or.inr (Or.inr ⟨_, _, _, rfl⟩)
                · exact Or.inr (Or.inr ⟨_, _, _, rfl⟩)
          · exact Or.inr (Or.inl ⟨_, rfl⟩)

theorem parseFieldsGo_inv (P : Str × Str → Prop)
    (hP : ∀ nm v, P (pyLower nm, pyStrip v)) :
    ∀ (f : Nat) (s : Str) (acc : Dict), (∀ kv ∈ acc, P kv) →
      ∀ kv ∈ parseFieldsGo f s acc, P kv := by
  intro f
  induction f with
  | zero => intro s acc hacc kv hkv; exact hacc kv hkv
  | succ f ih =>
    intro s acc hacc kv hkv
    rw [parseFieldsGo_succ] at hkv
    rcases parseFieldsStep_chars s acc with ⟨a, heq, rfl⟩ | ⟨s', heq⟩ | ⟨s', nm, v, heq⟩
    · rw [heq] at hkv
      exact hacc kv hkv
    · rw [heq] at hkv
      exact ih s' acc hacc kv hkv
    · rw [heq] at hkv
      refine ih s' _ ?_ kv hkv
      intro kv' hkv'
      rcases List.mem_append.mp hkv' with h | h
      · exact hacc kv' h
      · rcases List.mem_singleton.mp h with rfl
        exact hP nm v

theorem matchMarker_groups {s ty key rest : Str}
    (h : matchMarker s = some (ty, key, rest)) :
    ty ≠ [] ∧ (∀ c ∈ ty, isWordChar c = true) ∧ key ≠ [] ∧ (∀ c ∈ key, isKeyChar c = true) := by
  cases s with
  | nil => exact Option.noConfusion h
  | cons c s2 =>
    simp only [matchMarker] at h
    split at h
    · split at h
      · exact Option.noConfusion h
      · rename_i hty
        split at h
        · rename_i b r2 heq
          split at h
          · split at h
            · exact Option.noConfusion h
            · rename_i hkey
              split at h
              · rename_i d r6 heq2
                split at h
                · cases h
                  refine ⟨?_, ?_, ?_, ?_⟩
                  · intro hnil
                    rw [List.isEmpty_iff.mpr hnil] at hty
                    exact hty rfl
                  · intro x hx
                    exact List.mem_takeWhile_imp hx
                  · intro hnil
                    rw [List.isEmpty_iff.mpr hnil] at hkey
                    exact hkey rfl
                  · intro x hx
                    exact List.mem_takeWhile_imp hx
                · exact Option.noConfusion h
              · exact Option.noConfusion h
          · exact Option.noConfusion h
        · exact Option.noConfusion h
    · exact Option.noConfusion h

theorem not_pySpace_of_keyChar {c : Char} (h : isKeyChar c = true) : isPySpace c = false := by
  simp only [isKeyChar, Bool.and_eq_true, Bool.not_eq_true'] at h
  exact h.2

/-- The record built by `parse_bib` at one matched marker. -/
def markerRecord (ty key body : Str) : Dict :=
  dset (dset (parseFields body) (str "_type") (pyLower ty)) (str "_key") (pyStrip key)

theorem parseBibStep_of_marker {s ty key after : Str}
    (hm : matchMarker s = some (ty, key, after)) :
    parseBibStep s = .yield (markerRecord ty key (scanBraced after 1 []).1) after := by
  cases s with
  | nil => exact Option.noConfusion hm
  | cons c s2 =>
    simp only [parseBibStep, hm]
    rfl

theorem parseBibStep_of_no_marker {c : Char} {s2 : Str}
    (hm : matchMarker (c :: s2) = none) :
    parseBibStep (c :: s2) = .skip s2 := by
  simp only [parseBibStep, hm]

theorem markerRecord_type (ty key body : Str) :
    dget (markerRecord ty key body) (str "_type") = some (pyLower ty) := by
  unfold markerRecord
  rw [dget_dset, if_neg (by decide), dget_dset, if_pos rfl]

theorem markerRecord_key (ty key body : Str) :
    dget (markerRecord ty key body) (str "_key") = some (pyStrip key) := by
  unfold markerRecord
  rw [dget_dset, if_pos rfl]

theorem parseBibGo_markers (f : Nat) :
    ∀ s : Str,
      (parseBibGo f s).map (fun r => (dget r (str "_type"), dget r (str "_key")))
        = (findMarkersGo f s).map (fun p => (some (pyLower p.1), some (pyStrip p.2))) := by
  induction f with
  | zero => intro s; rfl
  | succ f ih =>
    intro s
    cases s with
    | nil => rfl
    | cons c s2 =>
      rw [parseBibGo_succ,
        (show findMarkersGo (f + 1) (c :: s2) =
          (match matchMarker (c :: s2) with
           | some (ty, key, after) => (ty, key) :: findMarkersGo f after
           | none => findMarkersGo f s2) from rfl)]
      cases hm : matchMarker (c :: s2) with
      | none =>
        rw [parseBibStep_of_no_marker hm]
        exact ih s2
      | some m =>
        obtain ⟨ty, key, after⟩ := m
        rw [parseBibStep_of_marker hm]
        simp only [List.map_cons, markerRecord_type, markerRecord_key, ih after]

theorem parseBibGo_mem (f : Nat) :
    ∀ (s : Str) (r : Dict), r ∈ parseBibGo f s →
      ∃ t k, dget r (str "_type") = some t ∧ t ≠ [] ∧ pyLower t = t
        ∧ dget r (str "_key") = some k ∧ k ≠ [] := by
  induction f with
  | zero => intro s r hr; exact absurd hr (by simp [parseBibGo])
  | succ f ih =>
    intro s r hr
    rw [parseBibGo_succ] at hr
    cases s with
    | nil => exact absurd hr (by simp [parseBibStep])
    | cons c s2 =>
      cases hm : matchMarker (c :: s2) with
      | none =>
        rw [parseBibStep_of_no_marker hm] at hr
        exact ih s2 r hr
      | some m =>
        obtain ⟨ty, key, after⟩ := m
        rw [parseBibStep_of_marker hm] at hr
        rcases List.mem_cons.mp hr with rfl | hr'
        · obtain ⟨hty, _, hkey, hkchars⟩ := matchMarker_groups hm
          refine ⟨pyLower ty, pyStrip key, markerRecord_type _ _ _, ?_, pyLower_idem ty,
            markerRecord_key _ _ _, ?_⟩
          · intro hnil
            exact hty (List.map_eq_nil_iff.mp hnil)
          · rw [pyStrip_of_no_space (fun x hx => not_pySpace_of_keyChar (hkchars x hx))]
            exact hkey
        · exact ih after r hr'

theorem parseFieldsGo_delim (d : Char) (hd : d = ',' ∨ d = '}' ∨ d = '\n')
    (f : Nat) (hf : 2 ≤ f) (acc : Dict) : parseFieldsGo f [d] acc = acc := by
  obtain ⟨g, rfl⟩ : ∃ g, f = g + 1 := ⟨f - 1, by omega⟩
  rcases hd with rfl | rfl | rfl
  · rfl
  · rw [parseFieldsGo_succ]
    show parseFieldsGo g [] acc = acc
    exact parseFieldsGo_nil g acc
  · rfl

/-! The claim theorems. -/

/-- Claim C1, as frozen, is falsified by the code at the entry body
`a={ {0} }`: the stored value is the whitespace-stripped inner content
`{0}`, not the full inner content ` {0} ` between the outermost braces
(line 134 of the source applies `value.strip()`). -/
theorem c1_counterexample :
    parseFields (str "a=\x7b \x7b0\x7d \x7d") = [(str "a", str "\x7b0\x7d")]
      ∧ str "\x7b0\x7d" ≠ str " \x7b0\x7d " :=
  ⟨by decide, by decide⟩

/-- Claim C1 (amended): for every entry field whose value is delimited by
braces and whose inner content is brace-balanced at any nesting depth, the
parser stores the inner content between the outermost brace pair trimmed of
surrounding whitespace, preserving all inner braces and their contents
verbatim (the depth counter matches nesting at arbitrary depth). -/
theorem c1_brace_depth (nm inner : Str) (hne : nm ≠ [])
    (hword : ∀ c ∈ nm, isWordChar c = true) (hbal : Balanced inner) :
    parseFields (nm ++ '=' :: '{' :: (inner ++ ['}'])) = [(pyLower nm, pyStrip inner)] := by
  have hstep := parseFieldsStep_braced nm inner [] [] hne hword hbal
  obtain ⟨g, hg⟩ : ∃ g, (nm ++ '=' :: '{' :: (inner ++ ['}'])).length = g + 1 := by
    cases nm with
    | nil => exact absurd rfl hne
    | cons a nm' => exact ⟨_, rfl⟩
  show parseFieldsGo (nm ++ '=' :: '{' :: (inner ++ ['}'])).length _ [] = _
  rw [hg, parseFieldsGo_succ, hstep]
  show parseFieldsGo g [] (dset [] (pyLower nm) (pyStrip inner)) = _
  rw [parseFieldsGo_nil]
  rfl

theorem c1_witness :
    parseFields (['x'] ++ '=' :: '{' :: (['{', '{', '0', '}', '}'] ++ ['}']))
      = [(['x'], ['{', '{', '0', '}', '}'])] := by
  have h := c1_brace_depth ['x'] ['{', '{', '0', '}', '}'] (by decide) (by decide)
    (Balanced.nest ['{', '0', '}'] []
      (Balanced.nest ['0'] [] (Balanced.other '0' [] (by decide) (by decide) Balanced.nil)
        Balanced.nil)
      Balanced.nil)
  rw [h]
  decide

/-- Claim C2: the parser is total.  Each iteration of the field-scanning
loop of `_parse_fields` and of the marker scan of `parse_bib` consumes at
least one character, so running the loops with any fuel at least the input
length produces the same well-defined result: the loops terminate within
`length` iterations on every input, malformed or not, and
`_parse_fields` / `parse_bib` return a field mapping / record list for
every input string. -/
theorem c2_parser_total :
    (∀ (s : Str) (acc : Dict) (f : Nat), s.length ≤ f →
        parseFieldsGo f s acc = parseFieldsGo s.length s acc)
    ∧ (∀ (s : Str) (f : Nat), s.length ≤ f → parseBibGo f s = parseBibGo s.length s)
    ∧ (∀ body : Str, parseFields body = parseFieldsGo body.length body [])
    ∧ (∀ content : Str, parse_bib content = parseBibGo content.length content) :=
  ⟨fun _ _ _ hf => parseFieldsGo_fuel hf, fun _ _ hf => parseBibGo_fuel hf,
    fun _ => rfl, fun _ => rfl⟩

theorem c2_witness :
    parseFieldsGo 99 (str "a=\x7bunbalanced \" , x") []
        = parseFieldsGo (str "a=\x7bunbalanced \" , x").length
            (str "a=\x7bunbalanced \" , x") []
    ∧ parseBibGo 99 (str "@broken\x7bkey junk")
        = parseBibGo (str "@broken\x7bkey junk").length (str "@broken\x7bkey junk") :=
  ⟨c2_parser_total.1 _ _ 99 (by decide), c2_parser_total.2.1 _ 99 (by decide)⟩

/-- Claim C3, as frozen, is falsified by the code at the entry body
`a="x\"y"`: the scanner stops at the next `"` even when it is
backslash-escaped (line 124 has no escape handling), storing `x\` rather
than the content `x\"y` up to the next unescaped quote. -/
theorem c3_counterexample :
    parseFields (str "a=\"x\\\"y\"") = [(str "a", str "x\\")]
      ∧ str "x\\" ≠ str "x\\\"y" :=
  ⟨by decide, by decide⟩

/-- Claim C3 (amended): for every entry field whose value is delimited by
straight double quotes, the stored value is the substring between the
opening quote and the next double quote — whether escaped or not — trimmed
of surrounding whitespace, with no brace handling applied inside the
quotes. -/
theorem c3_quoted (nm inner : Str) (hne : nm ≠ [])
    (hword : ∀ c ∈ nm, isWordChar c = true) (hq : ∀ c ∈ inner, c ≠ '"') :
    parseFields (nm ++ '=' :: '"' :: (inner ++ ['"'])) = [(pyLower nm, pyStrip inner)] := by
  have hstep := parseFieldsStep_quoted nm inner [] [] hne hword hq
  obtain ⟨g, hg⟩ : ∃ g, (nm ++ '=' :: '"' :: (inner ++ ['"'])).length = g + 1 := by
    cases nm with
    | nil => exact absurd rfl hne
    | cons a nm' => exact ⟨_, rfl⟩
  show parseFieldsGo (nm ++ '=' :: '"' :: (inner ++ ['"'])).length _ [] = _
  rw [hg, parseFieldsGo_succ, hstep]
  show parseFieldsGo g [] (dset [] (pyLower nm) (pyStrip inner)) = _
  rw [parseFieldsGo_nil]
  rfl

theorem c3_witness :
    parseFields (['a'] ++ '=' :: '"' :: (['x', '{', 'y'] ++ ['"']))
      = [(['a'], ['x', '{', 'y'])] := by
  have h := c3_quoted ['a'] ['x', '{', 'y'] (by decide) (by decide) (by decide)
  rw [h]
  decide

/-- Claim C4: a bare (unbraced, unquoted) field value extends up to but
excluding the next comma, closing brace or newline, trimmed of surrounding
whitespace; in particular a stray `{` does not terminate a bare value (the
first conjunct allows `{` anywhere past the first value character, and the
second conjunct shows `b{c` parsed whole from `a=b{c,`). -/
theorem c4_bare_value :
    (∀ (nm v : Str) (d : Char), nm ≠ [] → (∀ c ∈ nm, isWordChar c = true) →
      (d = ',' ∨ d = '}' ∨ d = '\n') → (∀ c ∈ v, notDelim c = true) →
      v.dropWhile isPySpace ≠ [] →
      (∀ c, (v.dropWhile isPySpace).head? = some c → c ≠ '{' ∧ c ≠ '"') →
      parseFields (nm ++ '=' :: (v ++ [d])) = [(pyLower nm, pyStrip v)])
    ∧ parseFields (str "a=b\x7bc,") = [(str "a", str "b\x7bc")] := by
  constructor
  · intro nm v d hne hword hdelim hv hv0 hv1
    have hstep := parseFieldsStep_bare nm v [] d [] hne hword hdelim hv hv0 hv1
    obtain ⟨g, hg⟩ : ∃ g, (nm ++ '=' :: (v ++ [d])).length = g + 1 := by
      cases nm with
      | nil => exact absurd rfl hne
      | cons a nm' => exact ⟨_, rfl⟩
    have hvlen : 1 ≤ v.length := by
      cases v with
      | nil => exact absurd rfl hv0
      | cons _ _ => simp
    show parseFieldsGo (nm ++ '=' :: (v ++ [d])).length _ [] = _
    rw [hg, parseFieldsGo_succ, hstep]
    show parseFieldsGo g [d] (dset [] (pyLower nm) (pyStrip v)) = _
    rw [parseFieldsGo_delim d hdelim g (by
      have : (nm ++ '=' :: (v ++ [d])).length = nm.length + v.length + 2 := by
        simp
        omega
      omega) _]
    rfl
  · decide

theorem c4_witness :
    parseFields (['n'] ++ '=' :: (['b', '{', 'c'] ++ [','])) = [(['n'], ['b', '{', 'c'])] := by
  have h := c4_bare_value.1 ['n'] ['b', '{', 'c'] ',' (by decide) (by decide)
    (Or.inl rfl) (by decide) (by decide) (by decide)
  rw [h]
  decide

/-- Claim C5: every binding stored by `_parse_fields` has a lowercased key
and a whitespace-stripped value, and a later occurrence of the same field
name (case-insensitively) overwrites an earlier one — the lookup of `a`
after parsing `a={1},A={2}` yields `2`, with no duplicate detection. -/
theorem c5_fields_normalized :
    (∀ (body : Str) (kv : Str × Str), kv ∈ parseFields body →
        pyLower kv.1 = kv.1 ∧ pyStrip kv.2 = kv.2)
    ∧ dget (parseFields (str "a=\x7b1\x7d,A=\x7b2\x7d")) (str "a") = some (str "2") := by
  constructor
  · intro body kv hkv
    exact parseFieldsGo_inv (fun kv => pyLower kv.1 = kv.1 ∧ pyStrip kv.2 = kv.2)
      (fun nm v => ⟨pyLower_idem nm, pyStrip_idem v⟩) _ _ [] (by simp) kv hkv
  · decide

theorem c5_witness : pyLower (str "y") = str "y" ∧ pyStrip (str "1") = str "1" :=
  c5_fields_normalized.1 (str "Y=\x7b 1 \x7d") (str "y", str "1") (by decide)

/-- Claim C6: `parse_bib` produces exactly one record per entry marker
`@type{key,`, in the order the markers appear in the source text — the
record sequence projects, entry by entry, onto the marker sequence found by
the same non-overlapping scan — and records with identical citation keys
are not deduplicated. -/
theorem c6_marker_order :
    (∀ content : Str,
        (parse_bib content).map (fun r => (dget r (str "_type"), dget r (str "_key")))
          = (findMarkers content).map (fun p => (some (pyLower p.1), some (pyStrip p.2))))
    ∧ parse_bib (str "@a\x7bk,\x7d@a\x7bk,\x7d")
        = [[(str "_type", str "a"), (str "_key", str "k")],
           [(str "_type", str "a"), (str "_key", str "k")]] := by
  constructor
  · intro content
    exact parseBibGo_markers content.length content
  · decide

/-- Claim C7: every record of `parse_bib` carries a non-empty lowercased
`_type` and a non-empty `_key` taken from its entry marker; the marker's
values overwrite any `_type`/`_key` fields declared in the entry body, and
an entry with no fields still yields a valid record. -/
theorem c7_reserved_keys :
    (∀ (content : Str) (r : Dict), r ∈ parse_bib content →
        ∃ t k, dget r (str "_type") = some t ∧ t ≠ [] ∧ pyLower t = t
          ∧ dget r (str "_key") = some k ∧ k ≠ [])
    ∧ (parse_bib (str "@Art\x7bK1, _type=\x7bzzz\x7d, _key=\x7bwww\x7d\x7d")).map
        (fun r => (dget r (str "_type"), dget r (str "_key")))
        = [(some (str "art"), some (str "K1"))]
    ∧ parse_bib (str "@a\x7bk,\x7d") = [[(str "_type", str "a"), (str "_key", str "k")]] := by
  refine ⟨?_, by decide, by decide⟩
  intro content r hr
  exact parseBibGo_mem content.length content r hr

theorem c7_witness :
    ∃ t k, dget [(str "_type", str "a"), (str "_key", str "k")] (str "_type") = some t
      ∧ t ≠ [] ∧ pyLower t = t
      ∧ dget [(str "_type", str "a"), (str "_key", str "k")] (str "_key") = some k
      ∧ k ≠ [] :=
  c7_reserved_keys.1 (str "@a\x7bk,\x7d") [(str "_type", str "a"), (str "_key", str "k")]
    (by decide)

/-- Claim C8: every category listing sorts its filtered records descending
by the derived year string: the composition `sort_by_year_desc ∘
filter_by_keyword` used by each listing returns a permutation of the
filtered records that is pairwise non-ascending under lexicographic string
comparison of derived years; the derived year of a record without `year` is
the prefix of its `date` before the first `-` or `/` (so `2021-05-03`
yields `"2021"`); the empty string is lexicographically minimal, hence
sorts last under the descending order; and year 2023 is ordered before
year 2020, as in the spec's `keyA`/`keyB` example. -/
theorem c8_listing_sorted :
    (∀ (es : List Dict) (kw : Str),
        (sort_by_year_desc (filter_by_keyword es kw)).Perm (filter_by_keyword es kw)
        ∧ (sort_by_year_desc (filter_by_keyword es kw)).Pairwise YearDescOrder)
    ∧ (∀ (e : Dict) (dt : Str), dget e (str "year") = none → dget e (str "date") = some dt →
        get_year e = (dt.takeWhile (fun c => !(c == '-'))).takeWhile (fun c => !(c == '/')))
    ∧ get_year [(str "date", str "2021-05-03")] = str "2021"
    ∧ (∀ s : Str, lexLt s [] = false)
    ∧ (sort_by_year_desc (filter_by_keyword
        (parse_bib (str "@article\x7bkeyA, year=\x7b2020\x7d, keywords=\x7bpub\x7d\x7d @misc\x7bkeyB, year=\x7b2023\x7d, keywords=\x7bpub\x7d\x7d"))
        (str "pub"))).map (fun r => dget r (str "_key"))
        = [some (str "keyB"), some (str "keyA")] := by
  refine ⟨fun es kw => ⟨sort_by_year_desc_perm _, sort_by_year_desc_pairwise _⟩,
    ?_, by decide, lexLt_nil_right, by decide⟩
  intro e dt h1 h2
  unfold get_year
  rw [h1, h2]

theorem c8_witness :
    ((sort_by_year_desc (filter_by_keyword [] (str "pub"))).Perm
        (filter_by_keyword [] (str "pub"))
      ∧ (sort_by_year_desc (filter_by_keyword [] (str "pub"))).Pairwise YearDescOrder)
    ∧ get_year [(str "date", str "2021-05-03")]
        = ((str "2021-05-03").takeWhile (fun c => !(c == '-'))).takeWhile
            (fun c => !(c == '/')) :=
  ⟨c8_listing_sorted.1 [] (str "pub"),
    c8_listing_sorted.2.1 [(str "date", str "2021-05-03")] (str "2021-05-03")
      (by decide) (by decide)⟩

/-- Claim C9: `filter_by_keyword` keeps a record exactly when the tag is one
of the whitespace-stripped components of the comma-split `keywords` field; a
record without a `keywords` field matches no non-empty tag; and the
components of `keywords = {pub, software}` are exactly `pub` and
`software`, so such a record appears in precisely those two category
filters. -/
theorem c9_keyword_filter :
    (∀ (es : List Dict) (kw : Str) (e : Dict),
        e ∈ filter_by_keyword es kw ↔
          e ∈ es ∧ kw ∈ (splitOnChar ',' (dgetD e (str "keywords") [])).map pyStrip)
    ∧ (∀ (es : List Dict) (kw : Str) (e : Dict),
        dget e (str "keywords") = none → kw ≠ [] → e ∉ filter_by_keyword es kw)
    ∧ (∀ kw : Str, kw ∈ (splitOnChar ',' (str "pub, software")).map pyStrip
        ↔ (kw = str "pub" ∨ kw = str "software"))
    ∧ [(str "keywords", str "pub, software")]
        ∈ filter_by_keyword [[(str "keywords", str "pub, software")]] (str "pub")
    ∧ [(str "keywords", str "pub, software")]
        ∈ filter_by_keyword [[(str "keywords", str "pub, software")]] (str "software") := by
  have hmem : ∀ (es : List Dict) (kw : Str) (e : Dict),
      e ∈ filter_by_keyword es kw ↔
        e ∈ es ∧ kw ∈ (splitOnChar ',' (dgetD e (str "keywords") [])).map pyStrip := by
    intro es kw e
    unfold filter_by_keyword
    rw [List.mem_filter]
    exact and_congr_right fun _ => List.elem_iff
  refine ⟨hmem, ?_, ?_, by decide, by decide⟩
  · intro es kw e hnone hne hmem'
    have h := ((hmem es kw e).mp hmem').2
    rw [show dgetD e (str "keywords") [] = [] from by rw [dgetD, hnone]; rfl] at h
    have : kw = [] := by
      rcases List.mem_map.mp h with ⟨p, hp, hkw⟩
      rcases List.mem_singleton.mp hp with rfl
      exact hkw.symm
    exact hne this
  · intro kw
    rw [show (splitOnChar ',' (str "pub, software")).map pyStrip
      = [str "pub", str "software"] from by decide]
    simp

theorem c9_witness :
    ([(str "keywords", str "pub, software")]
        ∈ filter_by_keyword [[(str "keywords", str "pub, software")]] (str "pub")
      ↔ [(str "keywords", str "pub, software")] ∈ [[(str "keywords", str "pub, software")]]
        ∧ str "pub" ∈ (splitOnChar ','
            (dgetD [(str "keywords", str "pub, software")] (str "keywords") [])).map pyStrip)
    ∧ ([] : Dict) ∉ filter_by_keyword [([] : Dict)] (str "x") :=
  ⟨c9_keyword_filter.1 [[(str "keywords", str "pub, software")]] (str "pub")
      [(str "keywords", str "pub, software")],
    c9_keyword_filter.2.1 [([] : Dict)] (str "x") [] (by decide) (by decide)⟩

/-- Modelled from the spec: the detail page of a record whose optional
fields are all absent must consist of exactly the YAML header with the
default title `Untitled`, the type badge, and the metadata card with the
AUTHORS and PUBLISHED rows carrying empty values — the publication-details
row, the links row and the abstract block are omitted. -/
def detailPageAllAbsent (label : Str) : Str :=
  pyJoin (str "\n")
    [str "---", str "title: \"" ++ str "Untitled" ++ str "\"", str "toc: false",
     str "---", [],
     str "<span class=\"pub-type-badge\">" ++ label ++ str "</span>", [],
     str "<div class=\"pub-meta-card\">",
     str "<div class=\"pub-meta-row\">", str "<div class=\"pub-meta-label\">AUTHORS</div>",
     str "<div class=\"pub-meta-value\">" ++ str "</div>", str "</div>",
     str "<div class=\"pub-meta-row\">", str "<div class=\"pub-meta-label\">PUBLISHED</div>",
     str "<div class=\"pub-meta-value\">" ++ str "</div>", str "</div>",
     str "</div>", []]

/-- Modelled from the spec: the citation bullet of a record whose optional
fields are all absent — empty author and year, the default title linked to
the record's detail page, and no journal/note, DOI or eprint fragments. -/
def bulletAllAbsent (index : Nat) (key : Str) : Str :=
  pyJoin (str "\n")
    [natStr index ++ str ". " ++ pyJoin (str " ")
      [str " (" ++ str ").",
       str "“[" ++ str "Untitled" ++ str "](" ++ (str "publications/" ++ key ++ str "/")
         ++ str ").”"],
     []]

/-- Claim C10: for a record with `_type` and `_key` present, the
detail-page builder and the citation formatter both return a result
(no `KeyError`, and `format_date` is never reached when `date` is absent)
even when every optional field is absent, and the output then omits the
fragment of each absent field: it equals the expected page / bullet in
which the publication-details row, links row, abstract block and the
DOI/eprint citation parts do not occur. -/
theorem c10_renderers_tolerate_absent (e : Dict) (fs : Str → Bool) (i : Nat) (t k : Str)
    (ht : dget e (str "_type") = some t) (hk : dget e (str "_key") = some k)
    (htitle : dget e (str "title") = none) (hauthor : dget e (str "author") = none)
    (hjournal : dget e (str "journal") = none) (hvolume : dget e (str "volume") = none)
    (hnumber : dget e (str "number") = none) (hpages : dget e (str "pages") = none)
    (hdoi : dget e (str "doi") = none) (hnote : dget e (str "note") = none)
    (habstract : dget e (str "abstract") = none) (heprint : dget e (str "eprint") = none)
    (hfile : dget e (str "file") = none) (hdate : dget e (str "date") = none)
    (hyear : dget e (str "year") = none) :
    build_detail_page fs e
        = some (detailPageAllAbsent
            (if t = str "article" then str "JOURNAL ARTICLES" else str "PREPRINTS"))
    ∧ fmt_publication_bullet e i = some (bulletAllAbsent i k) := by
  have hgy : get_year e = [] := by unfold get_year; rw [hyear, hdate]
  have hlabel : getPubTypeLabel e
      = some (if t = str "article" then str "JOURNAL ARTICLES" else str "PREPRINTS") := by
    unfold getPubTypeLabel; rw [ht]
  have hD : ∀ key dflt, dget e key = none → dgetD e key dflt = dflt := by
    intro key dflt h; rw [dgetD, h]; rfl
  have hcl : clean_latex [] = [] := rfl
  have hti : clean_latex (str "Untitled") = str "Untitled" := by decide
  have hst : replaceAll (str "\"") (str "\\\"") (str "Untitled") = str "Untitled" := by decide
  have hba : bold_author [] = [] := rfl
  have hpd : pubDetails e = [] := by
    unfold pubDetails
    rw [hD _ _ hjournal, hD _ _ hnote]
    simp [hcl]
  have hlb : linkBadges fs e = [] := by
    unfold linkBadges
    rw [hD _ _ hdoi, hD _ _ hfile, hD _ _ heprint]
    simp
  constructor
  · unfold build_detail_page detailPageAllAbsent
    rw [hlabel]
    simp [hD _ _ hdate, hD _ _ htitle, hD _ _ hauthor, hD _ _ habstract,
      hgy, hpd, hlb, hti, hst, hcl]
  · unfold fmt_publication_bullet bulletAllAbsent
    rw [hk]
    simp [hD _ _ htitle, hD _ _ hauthor, hD _ _ hjournal, hD _ _ hvolume,
      hD _ _ hnumber, hD _ _ hpages, hD _ _ hdoi, hD _ _ hnote, hD _ _ heprint,
      hgy, hti, hba, hcl]

theorem c10_witness :
    build_detail_page (fun _ => false) [(str "_type", str "misc"), (str "_key", str "k9")]
        = some (detailPageAllAbsent
            (if str "misc" = str "article" then str "JOURNAL ARTICLES" else str "PREPRINTS"))
    ∧ fmt_publication_bullet [(str "_type", str "misc"), (str "_key", str "k9")] 1
        = some (bulletAllAbsent 1 (str "k9")) :=
  c10_renderers_tolerate_absent [(str "_type", str "misc"), (str "_key", str "k9")]
    (fun _ => false) 1 (str "misc") (str "k9")
    (by decide) (by decide) (by decide) (by decide) (by decide) (by decide) (by decide)
    (by decide) (by decide) (by decide) (by decide) (by decide) (by decide) (by decide)
    (by decide)

end GenPages
